import Mathlib

/-!
Verification of the word-hunt-solver core: the prefix dictionary (trie) of
`src/wordhunt/trie.py` and the grid backtracking search of
`src/wordhunt/solver.py`, shallowly embedded in Lean.

Words, query sequences and grid cell tokens are lists of characters
(Python strings).  The trie node's `children` dict is embedded as an
association list from `Char` to child nodes; `setdefault` appends a fresh
entry at the end when the key is absent, matching dict insertion order.
The mutable depth-first search is embedded in state-passing style: the
`visited` matrix is represented by the list `free` of cells that are NOT
currently on the backtracking path, and the recursion carries an explicit
fuel argument; `solve_grid` supplies fuel `rows * cols`, which is shown
sufficient (the recursion depth is bounded by the number of grid cells).
-/

/-- A trie node: `children` is the character-keyed child map
(`Dict[str, TrieNode]` in `trie.py`, kept in insertion order) and
`is_word` is the complete-word flag. -/
inductive TrieNode where
  | mk (children : List (Char × TrieNode)) (is_word : Bool)

/-- The child map of a node. -/
def TrieNode.children : TrieNode → List (Char × TrieNode)
  | .mk cs _ => cs

/-- The complete-word flag of a node. -/
def TrieNode.is_word : TrieNode → Bool
  | .mk _ b => b

/-- A fresh node, `TrieNode()` in the source: no children, flag unset. -/
def TrieNode.empty : TrieNode := .mk [] false

/-- `children.get(ch)`: first (and, by construction, only) entry keyed `ch`. -/
def lookupChild : List (Char × TrieNode) → Char → Option TrieNode
  | [], _ => none
  | (k, v) :: rest, ch => if k = ch then some v else lookupChild rest ch

/-- Child of a node under character `ch`. -/
def TrieNode.getChild (n : TrieNode) (ch : Char) : Option TrieNode :=
  lookupChild n.children ch

/-- Replace the entry keyed `ch` (keeping its position), or append a new
entry at the end when absent — the effect of `dict.setdefault` followed by
in-place mutation of the returned child. -/
def updateChild : List (Char × TrieNode) → Char → TrieNode → List (Char × TrieNode)
  | [], ch, t => [(ch, t)]
  | (k, v) :: rest, ch, t =>
      if k = ch then (ch, t) :: rest else (k, v) :: updateChild rest ch t

/-- `Trie.insert`: descend along `word`, creating missing children, and set
the final node's word flag. -/
def TrieNode.insert : TrieNode → List Char → TrieNode
  | n, [] => .mk n.children true
  | n, ch :: rest =>
      .mk (updateChild n.children ch
            (( TrieNode.getChild n ch).getD TrieNode.empty |>.insert rest))
          n.is_word

/-- The shared descent loop of `has_prefix` / `has_word`: follow `s`
child by child, `none` when a child is missing. -/
def TrieNode.find : TrieNode → List Char → Option TrieNode
  | n, [] => some n
  | n, ch :: rest =>
      match TrieNode.getChild n ch with
      | none => none
      | some c => TrieNode.find c rest

/-- `Trie.has_prefix` (written `hasPref` here): the descent along the
query succeeds. -/
def TrieNode.hasPref (n : TrieNode) (s : List Char) : Bool :=
  ( TrieNode.find n s).isSome

/-- `Trie.has_word`: the descent succeeds and ends at a flagged node. -/
def TrieNode.has_word (n : TrieNode) (s : List Char) : Bool :=
  match TrieNode.find n s with
  | none => false
  | some m => m.is_word

/-- `Trie()` followed by `insert` of every word of `ws` in order. -/
def Trie.ofWords (ws : List (List Char)) : TrieNode :=
  ws.foldl TrieNode.insert TrieNode.empty

theorem has_word_nil (n : TrieNode) : TrieNode.has_word n [] = n.is_word := rfl

theorem has_word_cons_none {n : TrieNode} {a : Char} (w : List Char)
    (h : TrieNode.getChild n a = none) : TrieNode.has_word n (a :: w) = false := by
  simp [TrieNode.has_word, TrieNode.find, h]

theorem has_word_cons_some {n c : TrieNode} {a : Char} (w : List Char)
    (h : TrieNode.getChild n a = some c) :
    TrieNode.has_word n (a :: w) = TrieNode.has_word c w := by
  simp [TrieNode.has_word, TrieNode.find, h]

theorem hasPref_nil (n : TrieNode) : TrieNode.hasPref n [] = true := rfl

theorem hasPref_cons_none {n : TrieNode} {a : Char} (w : List Char)
    (h : TrieNode.getChild n a = none) : TrieNode.hasPref n (a :: w) = false := by
  simp [TrieNode.hasPref, TrieNode.find, h]

theorem hasPref_cons_some {n c : TrieNode} {a : Char} (w : List Char)
    (h : TrieNode.getChild n a = some c) :
    TrieNode.hasPref n (a :: w) = TrieNode.hasPref c w := by
  simp [TrieNode.hasPref, TrieNode.find, h]

theorem lookupChild_updateChild (cs : List (Char × TrieNode)) (ch a : Char) (t : TrieNode) :
    lookupChild (updateChild cs ch t) a = if a = ch then some t else lookupChild cs a := by
  induction cs with
  | nil =>
    by_cases h : a = ch
    · subst h; simp [updateChild, lookupChild]
    · simp [updateChild, lookupChild, h, Ne.symm h]
  | cons kv rest ih =>
    obtain ⟨k, v⟩ := kv
    by_cases hk : k = ch
    · subst hk
      by_cases ha : a = k
      · subst ha; simp [updateChild, lookupChild]
      · simp [updateChild, lookupChild, ha, Ne.symm ha]
    · by_cases ha : k = a
      · subst ha
        simp [updateChild, lookupChild, hk]
      · simp [updateChild, lookupChild, hk, ha, ih]

theorem getChild_insert (n : TrieNode) (c : Char) (v : List Char) (a : Char) :
    TrieNode.getChild ( TrieNode.insert n (c :: v)) a =
      if a = c then some (( TrieNode.getChild n c).getD TrieNode.empty |>.insert v)
      else TrieNode.getChild n a := by
  simp [TrieNode.insert, TrieNode.getChild, TrieNode.children, lookupChild_updateChild]

theorem getChild_insert_nil (n : TrieNode) (a : Char) :
    TrieNode.getChild ( TrieNode.insert n []) a = TrieNode.getChild n a := by
  simp [TrieNode.insert, TrieNode.getChild, TrieNode.children]

theorem is_word_insert_nil (n : TrieNode) : ( TrieNode.insert n []).is_word = true := rfl

theorem is_word_insert_cons (n : TrieNode) (c : Char) (v : List Char) :
    ( TrieNode.insert n (c :: v)).is_word = n.is_word := rfl

theorem has_word_empty (w : List Char) :
    TrieNode.has_word TrieNode.empty w = false := by
  cases w with
  | nil => rfl
  | cons a w' =>
    exact has_word_cons_none w' (by rfl)

theorem hasPref_empty (w : List Char) :
    TrieNode.hasPref TrieNode.empty w = decide (w = []) := by
  cases w with
  | nil => rfl
  | cons a w' =>
    rw [hasPref_cons_none w' (by rfl)]
    simp

/-- Inserting `v` makes exactly `v` an additional complete word. -/
theorem has_word_insert (n : TrieNode) (v w : List Char) :
    TrieNode.has_word ( TrieNode.insert n v) w =
      (decide (w = v) || TrieNode.has_word n w) := by
  induction w generalizing n v with
  | nil =>
    cases v with
    | nil => simp [has_word_nil, is_word_insert_nil]
    | cons c v' => simp [has_word_nil, is_word_insert_cons]
  | cons a w' ih =>
    cases v with
    | nil =>
      cases hch : TrieNode.getChild n a with
      | none =>
        have hg : TrieNode.getChild ( TrieNode.insert n []) a = none := by
          rw [getChild_insert_nil]; exact hch
        rw [has_word_cons_none w' hg, has_word_cons_none w' hch]
        simp
      | some c0 =>
        have hg : TrieNode.getChild ( TrieNode.insert n []) a = some c0 := by
          rw [getChild_insert_nil]; exact hch
        rw [has_word_cons_some w' hg, has_word_cons_some w' hch]
        simp
    | cons c v' =>
      by_cases hac : a = c
      · subst hac
        cases hch : TrieNode.getChild n a with
        | none =>
          have hg : TrieNode.getChild ( TrieNode.insert n (a :: v')) a =
              some ( TrieNode.insert TrieNode.empty v') := by
            simp [getChild_insert, hch]
          rw [has_word_cons_some w' hg, has_word_cons_none w' hch, ih, has_word_empty]
          rw [show decide (a :: w' = a :: v') = decide (w' = v') from
            decide_eq_decide.mpr (by simp)]
        | some c0 =>
          have hg : TrieNode.getChild ( TrieNode.insert n (a :: v')) a =
              some ( TrieNode.insert c0 v') := by
            simp [getChild_insert, hch]
          rw [has_word_cons_some w' hg, has_word_cons_some w' hch, ih]
          rw [show decide (a :: w' = a :: v') = decide (w' = v') from
            decide_eq_decide.mpr (by simp)]
      · have hd : decide (a :: w' = c :: v') = false := by simp [hac]
        cases hch : TrieNode.getChild n a with
        | none =>
          have hg : TrieNode.getChild ( TrieNode.insert n (c :: v')) a = none := by
            rw [getChild_insert, if_neg hac]; exact hch
          rw [has_word_cons_none w' hg, has_word_cons_none w' hch, hd]
          simp
        | some c0 =>
          have hg : TrieNode.getChild ( TrieNode.insert n (c :: v')) a = some c0 := by
            rw [getChild_insert, if_neg hac]; exact hch
          rw [has_word_cons_some w' hg, has_word_cons_some w' hch, hd]
          simp

/-- Inserting `v` makes exactly the prefixes of `v` additional live
prefixes. -/
theorem hasPref_insert (n : TrieNode) (v w : List Char) :
    TrieNode.hasPref ( TrieNode.insert n v) w =
      (w.isPrefixOf v || TrieNode.hasPref n w) := by
  induction w generalizing n v with
  | nil => simp [hasPref_nil]
  | cons a w' ih =>
    cases v with
    | nil =>
      cases hch : TrieNode.getChild n a with
      | none =>
        have hg : TrieNode.getChild ( TrieNode.insert n []) a = none := by
          rw [getChild_insert_nil]; exact hch
        rw [hasPref_cons_none w' hg, hasPref_cons_none w' hch]
        simp
      | some c0 =>
        have hg : TrieNode.getChild ( TrieNode.insert n []) a = some c0 := by
          rw [getChild_insert_nil]; exact hch
        rw [hasPref_cons_some w' hg, hasPref_cons_some w' hch]
        simp
    | cons c v' =>
      by_cases hac : a = c
      · subst hac
        cases hch : TrieNode.getChild n a with
        | none =>
          have hg : TrieNode.getChild ( TrieNode.insert n (a :: v')) a =
              some ( TrieNode.insert TrieNode.empty v') := by
            simp [getChild_insert, hch]
          rw [hasPref_cons_some w' hg, hasPref_cons_none w' hch, ih, hasPref_empty]
          cases w' <;> simp [List.isPrefixOf_cons₂]
        | some c0 =>
          have hg : TrieNode.getChild ( TrieNode.insert n (a :: v')) a =
              some ( TrieNode.insert c0 v') := by
            simp [getChild_insert, hch]
          rw [hasPref_cons_some w' hg, hasPref_cons_some w' hch, ih]
          simp [List.isPrefixOf_cons₂]
      · cases hch : TrieNode.getChild n a with
        | none =>
          have hg : TrieNode.getChild ( TrieNode.insert n (c :: v')) a = none := by
            rw [getChild_insert, if_neg hac]; exact hch
          rw [hasPref_cons_none w' hg, hasPref_cons_none w' hch]
          simp [List.isPrefixOf_cons₂, hac]
        | some c0 =>
          have hg : TrieNode.getChild ( TrieNode.insert n (c :: v')) a = some c0 := by
            rw [getChild_insert, if_neg hac]; exact hch
          rw [hasPref_cons_some w' hg, hasPref_cons_some w' hch]
          simp [List.isPrefixOf_cons₂, hac]

theorem has_word_foldl (ws : List (List Char)) (n : TrieNode) (w : List Char) :
    TrieNode.has_word (ws.foldl TrieNode.insert n) w =
      (ws.any (fun v => decide (w = v)) || TrieNode.has_word n w) := by
  induction ws generalizing n with
  | nil => simp
  | cons v ws' ih =>
    rw [List.foldl_cons, ih, has_word_insert]
    simp [Bool.or_comm, Bool.or_left_comm, Bool.or_assoc]

theorem hasPref_foldl (ws : List (List Char)) (n : TrieNode) (w : List Char) :
    TrieNode.hasPref (ws.foldl TrieNode.insert n) w =
      (ws.any (fun v => w.isPrefixOf v) || TrieNode.hasPref n w) := by
  induction ws generalizing n with
  | nil => simp
  | cons v ws' ih =>
    rw [List.foldl_cons, ih, hasPref_insert]
    simp [Bool.or_comm, Bool.or_left_comm, Bool.or_assoc]

theorem has_word_ofWords (ws : List (List Char)) (w : List Char) :
    TrieNode.has_word ( Trie.ofWords ws) w = true ↔ w ∈ ws := by
  rw [Trie.ofWords, has_word_foldl, has_word_empty]
  simp only [Bool.or_false, List.any_eq_true, decide_eq_true_eq]
  constructor
  · rintro ⟨v, hv, rfl⟩; exact hv
  · intro h; exact ⟨w, h, rfl⟩

theorem hasPref_ofWords (ws : List (List Char)) (w : List Char) :
    TrieNode.hasPref ( Trie.ofWords ws) w = true ↔ (w = [] ∨ ∃ v ∈ ws, w <+: v) := by
  rw [Trie.ofWords, hasPref_foldl, hasPref_empty]
  simp [List.any_eq_true, List.isPrefixOf_iff_prefix, or_comm]

theorem updateChild_updateChild (cs : List (Char × TrieNode)) (ch : Char) (t t' : TrieNode) :
    updateChild (updateChild cs ch t) ch t' = updateChild cs ch t' := by
  induction cs with
  | nil => simp [updateChild]
  | cons kv rest ih =>
    obtain ⟨k, v⟩ := kv
    by_cases hk : k = ch
    · subst hk; simp [updateChild]
    · simp [updateChild, hk, ih]

/-- Re-inserting an already inserted word does not change the trie at all. -/
theorem insert_insert (v : List Char) (n : TrieNode) :
    TrieNode.insert ( TrieNode.insert n v) v = TrieNode.insert n v := by
  induction v generalizing n with
  | nil => rfl
  | cons c rest ih =>
    show TrieNode.insert (.mk (updateChild n.children c _) n.is_word) (c :: rest) = _
    rw [TrieNode.insert]
    have hg : TrieNode.getChild
        (.mk (updateChild n.children c
          (( TrieNode.getChild n c).getD TrieNode.empty |>.insert rest)) n.is_word) c =
        some (( TrieNode.getChild n c).getD TrieNode.empty |>.insert rest) := by
      show lookupChild (updateChild n.children c _) c = _
      rw [lookupChild_updateChild, if_pos rfl]
    rw [hg]
    show TrieNode.mk (updateChild (updateChild n.children c _) c _) n.is_word = _
    rw [updateChild_updateChild, Option.getD_some, ih]
    rfl

theorem insert_iterate (t : TrieNode) (w : List Char) (k : Nat) :
    (fun s => TrieNode.insert s w)^[k + 1] t = TrieNode.insert t w := by
  induction k with
  | zero => simp
  | succ k ih => rw [Function.iterate_succ_apply', ih, insert_insert]

theorem find_append (n : TrieNode) (u v : List Char) :
    TrieNode.find n (u ++ v) =
      match TrieNode.find n u with
      | none => none
      | some m => TrieNode.find m v := by
  induction u generalizing n with
  | nil => rfl
  | cons a u' ih =>
    show TrieNode.find n (a :: (u' ++ v)) = _
    cases hch : TrieNode.getChild n a with
    | none => simp [TrieNode.find, hch]
    | some c => simp [TrieNode.find, hch, ih]

/-- Every live word keeps the whole descent to it alive: any of its
prefixes passes `has_prefix`.  This is the reason the solver's pruning
step can never discard a dictionary word. -/
theorem hasPref_of_has_word_pre (t : TrieNode) (w u : List Char)
    (hw : TrieNode.has_word t w = true) (hu : u <+: w) :
    TrieNode.hasPref t u = true := by
  obtain ⟨v, rfl⟩ := hu
  rw [TrieNode.has_word, find_append] at hw
  rw [TrieNode.hasPref]
  cases hfu : TrieNode.find t u with
  | none => rw [hfu] at hw; simp at hw
  | some m => simp

/-! ## Grid search engine (`src/wordhunt/solver.py`) -/

/-- A 0-based grid coordinate `(row, column)`. -/
abbrev Coord := Nat × Nat

/-- A grid of cell tokens (each token a Python string). -/
abbrev Grid := List (List (List Char))

/-- `SolveConfig`: minimum accepted word length and the diagonal-adjacency
flag.  `min_len` is a Python `int`, hence `Int` here. -/
structure SolveConfig where
  min_len : Int
  allow_diagonal : Bool

/-- The neighbor offsets tried by `_neighbors`, in source order: the four
orthogonal ones, then the four diagonal ones when enabled. -/
def deltas (allow_diagonal : Bool) : List (Int × Int) :=
  [(-1, 0), (1, 0), (0, -1), (0, 1)] ++
    (if allow_diagonal then [(-1, -1), (-1, 1), (1, -1), (1, 1)] else [])

/-- `_neighbors(r, c, rows, cols, allow_diagonal)`: the in-bounds cells
adjacent to `(r, c)`, in delta order. -/
def neighbors (r c : Nat) (rows cols : Nat) (allow_diagonal : Bool) : List Coord :=
  (deltas allow_diagonal).filterMap fun d =>
    let nr : Int := (r : Int) + d.1
    let nc : Int := (c : Int) + d.2
    if 0 ≤ nr ∧ nr < (rows : Int) ∧ 0 ≤ nc ∧ nc < (cols : Int) then
      some (nr.toNat, nc.toNat)
    else none

/-- `str.lower()` on a token (ASCII model of Python's lowercasing). -/
def pyLower (s : List Char) : List Char := s.map Char.toLower

/-- `str.strip()` on a token: drop whitespace from both ends. -/
def pyStrip (s : List Char) : List Char :=
  ((s.dropWhile Char.isWhitespace).reverse.dropWhile Char.isWhitespace).reverse

/-- `cell.lower().strip()`, the per-cell normalisation of `solve_grid`. -/
def normCell (s : List Char) : List Char := pyStrip (pyLower s)

/-- The normalised grid `g` built by both traversal entry points. -/
def normGrid (grid : Grid) : Grid := grid.map fun row => row.map normCell

/-- `g[r][c]` (both solver functions only index in bounds; out-of-bounds
access is given the harmless default `[]`). -/
def cellAt (g : Grid) (rc : Coord) : List Char := (g.getD rc.1 []).getD rc.2 []

/-- `out.add(word)` on the result set, represented as a duplicate-free list. -/
def addWord (w : List Char) (out : List (List Char)) : List (List Char) :=
  if w ∈ out then out else out ++ [w]

/-- The recursive `dfs` of `solve_grid`, in state-passing style.

`free` lists the cells whose `visited` entry is false; the caller removes
the cell it recurses into, and backtracking (restoring `visited[r][c]` on
every exit) is implicit in passing the unchanged `free` to the next
neighbor.  `fuel` bounds the recursion depth; `solve_grid` passes
`rows * cols`, which is proven sufficient. -/
def dfs (g : Grid) (t : TrieNode) (cfg : SolveConfig) (rows cols : Nat) :
    Nat → List Coord → Coord → List Char → List (List Char) → List (List Char)
  | 0, _, _, _, out => out
  | fuel + 1, free, rc, current, out =>
      if TrieNode.hasPref t (current ++ cellAt g rc) then
        (neighbors rc.1 rc.2 rows cols cfg.allow_diagonal).foldl
          (fun acc n =>
            if n ∈ free then
              dfs g t cfg rows cols fuel (free.erase n) n (current ++ cellAt g rc) acc
            else acc)
          (if cfg.min_len ≤ ((current ++ cellAt g rc).length : Int) ∧
              TrieNode.has_word t (current ++ cellAt g rc) = true then
            addWord (current ++ cellAt g rc) out
          else out)
      else out

/-- All grid cells in row-major order — the start cells of the search and
the initially unvisited cells. -/
def allCells (rows cols : Nat) : List Coord :=
  (List.range rows).flatMap fun r => (List.range cols).map fun c => (r, c)

/-- `solve_grid(grid, trie, cfg)`: the set of found words, as a
duplicate-free list. -/
def solve_grid (grid : Grid) (t : TrieNode) (cfg : SolveConfig) : List (List Char) :=
  match grid with
  | [] => []
  | row0 :: _ =>
    if row0.isEmpty then []
    else
      (allCells grid.length row0.length).foldl
        (fun out rc =>
          dfs (normGrid grid) t cfg grid.length row0.length
            (grid.length * row0.length) ((allCells grid.length row0.length).erase rc)
            rc [] out)
        []

/-- `word not in paths` / `paths[word]`: lookup in the word-to-path
mapping, represented as an association list in insertion order. -/
def findPath : List (List Char × List Coord) → List Char → Option (List Coord)
  | [], _ => none
  | (w, p) :: rest, q => if w = q then some p else findPath rest q

/-- The recursive `dfs` of `solve_grid_with_paths`: as `dfs`, but also
carrying the current coordinate path and recording, for each found word,
the first full path that spells it. -/
def dfsP (g : Grid) (t : TrieNode) (cfg : SolveConfig) (rows cols : Nat) :
    Nat → List Coord → Coord → List Char → List Coord →
      List (List Char × List Coord) → List (List Char × List Coord)
  | 0, _, _, _, _, acc => acc
  | fuel + 1, free, rc, current, path, acc =>
      if TrieNode.hasPref t (current ++ cellAt g rc) then
        (neighbors rc.1 rc.2 rows cols cfg.allow_diagonal).foldl
          (fun a n =>
            if n ∈ free then
              dfsP g t cfg rows cols fuel (free.erase n) n (current ++ cellAt g rc)
                (path ++ [rc]) a
            else a)
          (if cfg.min_len ≤ ((current ++ cellAt g rc).length : Int) ∧
              TrieNode.has_word t (current ++ cellAt g rc) = true then
            (if (findPath acc (current ++ cellAt g rc)).isNone then
              acc ++ [(current ++ cellAt g rc, path ++ [rc])]
            else acc)
          else acc)
      else acc

/-- `solve_grid_with_paths(grid, trie, cfg)`: one `(word, path)` pair per
found word, the path being the first one discovered. -/
def solve_grid_with_paths (grid : Grid) (t : TrieNode) (cfg : SolveConfig) :
    List (List Char × List Coord) :=
  match grid with
  | [] => []
  | row0 :: _ =>
    if row0.isEmpty then []
    else
      (allCells grid.length row0.length).foldl
        (fun acc rc =>
          dfsP (normGrid grid) t cfg grid.length row0.length
            (grid.length * row0.length) ((allCells grid.length row0.length).erase rc)
            rc [] [] acc)
        []

/-! ## Specification-side predicates -/

/-- The number of grid rows. -/
def gridRows (grid : Grid) : Nat := grid.length

/-- The number of grid columns (length of the first row). -/
def gridCols (grid : Grid) : Nat := (grid.headD []).length

/-- The grid is rectangular: every row has the length of the first row. -/
def Rect (grid : Grid) : Prop := ∀ row ∈ grid, row.length = gridCols grid

/-- The coordinate lies inside the `rows × cols` bounds. -/
def inBounds (rows cols : Nat) (rc : Coord) : Prop := rc.1 < rows ∧ rc.2 < cols

instance (rows cols : Nat) (rc : Coord) : Decidable (inBounds rows cols rc) :=
  inferInstanceAs (Decidable (_ ∧ _))

/-- `b` is reachable from `a` in one step of the configured adjacency
rule, exactly as `_neighbors` enumerates it. -/
def adj (rows cols : Nat) (allow_diagonal : Bool) (a b : Coord) : Prop :=
  b ∈ neighbors a.1 a.2 rows cols allow_diagonal

instance (rows cols : Nat) (d : Bool) (a b : Coord) : Decidable (adj rows cols d a b) :=
  inferInstanceAs (Decidable (b ∈ _))

/-- Every two consecutive entries of the list are related by `R`. -/
def Steps (R : Coord → Coord → Prop) : List Coord → Prop
  | a :: b :: rest => R a b ∧ Steps R (b :: rest)
  | _ => True

instance instDecidableSteps {R : Coord → Coord → Prop} [DecidableRel R] :
    ∀ l, Decidable (Steps R l)
  | [] => isTrue trivial
  | [_] => isTrue trivial
  | a :: b :: rest =>
      haveI := instDecidableSteps (R := R) (b :: rest)
      inferInstanceAs (Decidable (R a b ∧ Steps R (b :: rest)))

/-- `p` traces the word `w` on the (already normalised) grid `g`: a
nonempty sequence of in-bounds cells, consecutive ones adjacent, none
repeated, whose tokens concatenated in order spell `w`. -/
def Traces (g : Grid) (rows cols : Nat) (allow_diagonal : Bool)
    (w : List Char) (p : List Coord) : Prop :=
  p ≠ [] ∧ Steps (adj rows cols allow_diagonal) p ∧ p.Nodup ∧
    (∀ rc ∈ p, inBounds rows cols rc) ∧ (p.map (cellAt g)).flatten = w

instance (g : Grid) (rows cols : Nat) (d : Bool) (w : List Char) (p : List Coord) :
    Decidable (Traces g rows cols d w p) :=
  inferInstanceAs (Decidable (_ ∧ _ ∧ _ ∧ _ ∧ _))

/-! ## Generic fold helpers -/

theorem foldl_mem_of_mem {α β : Type} (f : List β → α → List β)
    (hf : ∀ acc a x, x ∈ acc → x ∈ f acc a) :
    ∀ (l : List α) (acc : List β) (x : β), x ∈ acc → x ∈ l.foldl f acc := by
  intro l
  induction l with
  | nil => intro acc x hx; simpa using hx
  | cons a l' ih =>
    intro acc x hx
    exact ih (f acc a) x (hf acc a x hx)

theorem foldl_mem_of_step {α β : Type} (f : List β → α → List β)
    (hf : ∀ acc a x, x ∈ acc → x ∈ f acc a) (a : α) (x : β)
    (hx : ∀ acc, x ∈ f acc a) :
    ∀ (l : List α), a ∈ l → ∀ acc, x ∈ l.foldl f acc := by
  intro l
  induction l with
  | nil => intro h; exact absurd h (List.not_mem_nil a)
  | cons b l' ih =>
    intro hab acc
    rcases List.mem_cons.mp hab with hb | hl'
    · subst hb
      exact foldl_mem_of_mem f hf l' (f acc a) x (hx acc)
    · exact ih hl' (f acc b)

theorem foldl_sound {α β : Type} (f : List β → α → List β) (Q : α → β → Prop)
    (hf : ∀ acc a x, x ∈ f acc a → x ∈ acc ∨ Q a x) :
    ∀ (l : List α) (acc : List β) (x : β), x ∈ l.foldl f acc → x ∈ acc ∨ ∃ a ∈ l, Q a x := by
  intro l
  induction l with
  | nil => intro acc x hx; exact Or.inl (by simpa using hx)
  | cons a l' ih =>
    intro acc x hx
    rcases ih (f acc a) x hx with h | ⟨b, hb, hq⟩
    · rcases hf acc a x h with h' | hq
      · exact Or.inl h'
      · exact Or.inr ⟨a, List.mem_cons_self a l', hq⟩
    · exact Or.inr ⟨b, List.mem_cons_of_mem a hb, hq⟩

/-! ## Steps, neighbors and allCells lemmas -/

theorem steps_imp {R S : Coord → Coord → Prop} (h : ∀ a b, R a b → S a b) :
    ∀ l, Steps R l → Steps S l
  | [] => fun _ => trivial
  | [_] => fun _ => trivial
  | _ :: b :: rest => fun hs => ⟨h _ _ hs.1, steps_imp h (b :: rest) hs.2⟩

theorem steps_concat {R : Coord → Coord → Prop} :
    ∀ (l : List Coord) (b c : Coord),
      Steps R (l ++ [b]) → R b c → Steps R ((l ++ [b]) ++ [c])
  | [], _, _, _, hbc => ⟨hbc, trivial⟩
  | [a], _, _, h, hbc => ⟨h.1, hbc, trivial⟩
  | _ :: a₂ :: l, b, c, h, hbc => ⟨h.1, steps_concat (a₂ :: l) b c h.2 hbc⟩

theorem mem_neighbors_bounds {r c rows cols : Nat} {d : Bool} {b : Coord}
    (h : b ∈ neighbors r c rows cols d) : b.1 < rows ∧ b.2 < cols := by
  rw [neighbors, List.mem_filterMap] at h
  obtain ⟨dd, _, hf⟩ := h
  by_cases hcond : 0 ≤ (r : Int) + dd.1 ∧ (r : Int) + dd.1 < (rows : Int) ∧
      0 ≤ (c : Int) + dd.2 ∧ (c : Int) + dd.2 < (cols : Int)
  · rw [if_pos hcond] at hf
    obtain ⟨h1, h2, h3, h4⟩ := hcond
    cases hf
    constructor <;> simp <;> omega
  · rw [if_neg hcond] at hf
    exact absurd hf (by simp)

theorem neighbors_mono {r c rows cols : Nat} {b : Coord}
    (h : b ∈ neighbors r c rows cols false) : b ∈ neighbors r c rows cols true := by
  rw [neighbors, List.mem_filterMap] at h ⊢
  obtain ⟨dd, hdd, hf⟩ := h
  exact ⟨dd, by
    rw [deltas] at hdd ⊢
    exact List.mem_append_left _ (by simpa using hdd), hf⟩

theorem adj_mono {rows cols : Nat} {a b : Coord} (h : adj rows cols false a b) :
    adj rows cols true a b := neighbors_mono h

theorem adj_bounds {rows cols : Nat} {d : Bool} {a b : Coord} (h : adj rows cols d a b) :
    b.1 < rows ∧ b.2 < cols := mem_neighbors_bounds h

theorem mem_allCells (rows cols : Nat) (rc : Coord) :
    rc ∈ allCells rows cols ↔ rc.1 < rows ∧ rc.2 < cols := by
  obtain ⟨r, c⟩ := rc
  simp [allCells, List.mem_flatMap, List.mem_map, List.mem_range]

theorem sum_map_const_nat {α : Type} : ∀ (l : List α) (c : Nat),
    (l.map fun _ => c).sum = l.length * c := by
  intro l c
  induction l with
  | nil => simp
  | cons a l' ih => simp [ih, Nat.succ_mul, Nat.add_comm]

theorem length_allCells (rows cols : Nat) : (allCells rows cols).length = rows * cols := by
  rw [allCells, List.length_flatMap]
  simp only [Function.comp_def, List.length_map, List.length_range]
  rw [sum_map_const_nat, List.length_range]

theorem nodup_allCells (rows cols : Nat) : (allCells rows cols).Nodup := by
  rw [allCells, List.nodup_flatMap]
  constructor
  · intro r _
    exact (List.nodup_range cols).map (fun c c' h => by simpa using h)
  · refine List.Pairwise.imp ?_ (List.pairwise_lt_range rows)
    intro r r' hlt
    rw [Function.onFun, List.disjoint_left]
    rintro ⟨x1, x2⟩ hx hx'
    simp only [List.mem_map, List.mem_range] at hx hx'
    obtain ⟨c, _, hc⟩ := hx
    obtain ⟨c', _, hc'⟩ := hx'
    cases hc; cases hc'
    exact absurd rfl (Nat.ne_of_lt hlt)

/-! ## Soundness of the search -/

theorem mem_addWord_iff (v w : List Char) (out : List (List Char)) :
    w ∈ addWord v out ↔ w ∈ out ∨ w = v := by
  rw [addWord]
  by_cases hv : v ∈ out
  · rw [if_pos hv]
    constructor
    · exact Or.inl
    · rintro (h | rfl)
      · exact h
      · exact hv
  · rw [if_neg hv]
    simp

theorem mem_addWord_of_mem (v w : List Char) (out : List (List Char)) (h : w ∈ out) :
    w ∈ addWord v out := (mem_addWord_iff v w out).mpr (Or.inl h)

theorem mem_addWord_self (v : List Char) (out : List (List Char)) :
    v ∈ addWord v out := (mem_addWord_iff v v out).mpr (Or.inr rfl)

theorem dfs_succ (g : Grid) (t : TrieNode) (cfg : SolveConfig) (rows cols : Nat)
    (fuel : Nat) (free : List Coord) (rc : Coord) (current : List Char)
    (out : List (List Char)) :
    dfs g t cfg rows cols (fuel + 1) free rc current out =
      if TrieNode.hasPref t (current ++ cellAt g rc) then
        (neighbors rc.1 rc.2 rows cols cfg.allow_diagonal).foldl
          (fun acc n =>
            if n ∈ free then
              dfs g t cfg rows cols fuel (free.erase n) n (current ++ cellAt g rc) acc
            else acc)
          (if cfg.min_len ≤ ((current ++ cellAt g rc).length : Int) ∧
              TrieNode.has_word t (current ++ cellAt g rc) = true then
            addWord (current ++ cellAt g rc) out
          else out)
      else out := rfl

theorem dfs_mono (g : Grid) (t : TrieNode) (cfg : SolveConfig) (rows cols : Nat) :
    ∀ (fuel : Nat) (free : List Coord) (rc : Coord) (current : List Char)
      (out : List (List Char)) (w : List Char),
      w ∈ out → w ∈ dfs g t cfg rows cols fuel free rc current out := by
  intro fuel
  induction fuel with
  | zero => intro free rc current out w h; exact h
  | succ f ih =>
    intro free rc current out w h
    rw [dfs_succ]
    split
    · apply foldl_mem_of_mem
      · intro acc a x hx
        split
        · exact ih (free.erase a) a (current ++ cellAt g rc) acc x hx
        · exact hx
      · split
        · exact mem_addWord_of_mem _ _ _ h
        · exact h
    · exact h

theorem not_mem_erase_self {l : List Coord} (h : l.Nodup) (a : Coord) : a ∉ l.erase a :=
  fun hmem => ((h.mem_erase_iff).mp hmem).1 rfl

theorem dfs_sound (g : Grid) (t : TrieNode) (cfg : SolveConfig) (rows cols : Nat) :
    ∀ (fuel : Nat) (free : List Coord) (rc : Coord) (current : List Char)
      (out : List (List Char)) (w : List Char),
      free.Nodup → rc ∉ free →
      w ∈ dfs g t cfg rows cols fuel free rc current out →
      w ∈ out ∨
        ( TrieNode.has_word t w = true ∧ cfg.min_len ≤ (w.length : Int) ∧
          ∃ q, q.head? = some rc ∧ Steps (adj rows cols cfg.allow_diagonal) q ∧
            q.Nodup ∧ (∀ x ∈ q.tail, x ∈ free) ∧
            w = current ++ (q.map (cellAt g)).flatten) := by
  intro fuel
  induction fuel with
  | zero => intro free rc current out w _ _ h; exact Or.inl h
  | succ f ih =>
    intro free rc current out w hnd hrc h
    rw [dfs_succ] at h
    split at h
    case isFalse => exact Or.inl h
    case isTrue hpref =>
      rcases foldl_sound _
          (fun n x => n ∈ free ∧ TrieNode.has_word t x = true ∧
            cfg.min_len ≤ (x.length : Int) ∧
            ∃ q', q'.head? = some n ∧ Steps (adj rows cols cfg.allow_diagonal) q' ∧
              q'.Nodup ∧ (∀ y ∈ q'.tail, y ∈ free.erase n) ∧
              x = (current ++ cellAt g rc) ++ (q'.map (cellAt g)).flatten)
          (by
            intro acc n x hx
            by_cases hn : n ∈ free
            · rw [if_pos hn] at hx
              rcases ih (free.erase n) n (current ++ cellAt g rc) acc x (hnd.erase n)
                  (not_mem_erase_self hnd n) hx with h1 | h2
              · exact Or.inl h1
              · exact Or.inr ⟨hn, h2⟩
            · rw [if_neg hn] at hx
              exact Or.inl hx)
          _ _ _ h with
        hbase | ⟨n, hns, hnfree, hw, hlen, q', hq'head, hq'steps, hq'nd, hq'tail, hxeq⟩
      · split at hbase
        case isTrue hcond =>
          rcases (mem_addWord_iff _ _ _).mp hbase with hout | rfl
          · exact Or.inl hout
          · refine Or.inr ⟨hcond.2, hcond.1, [rc], rfl, trivial, List.nodup_singleton rc,
              by simp, by simp⟩
        case isFalse => exact Or.inl hbase
      · cases q' with
        | nil => simp at hq'head
        | cons n0 q'' =>
          have hn0 : n0 = n := by simpa using hq'head
          subst hn0
          refine Or.inr ⟨hw, hlen, rc :: n0 :: q'', rfl, ⟨hns, hq'steps⟩, ?_, ?_, ?_⟩
          · rw [List.nodup_cons]
            refine ⟨?_, hq'nd⟩
            intro hmem
            rcases List.mem_cons.mp hmem with h0 | h0
            · subst h0; exact hrc hnfree
            · exact hrc (List.erase_subset _ _ (hq'tail _ h0))
          · intro x hx
            rcases List.mem_cons.mp hx with h0 | h0
            · subst h0; exact hnfree
            · exact List.erase_subset _ _ (hq'tail _ h0)
          · rw [hxeq]
            simp [List.append_assoc]

theorem solve_grid_sound (grid : Grid) (t : TrieNode) (cfg : SolveConfig) (w : List Char)
    (h : w ∈ solve_grid grid t cfg) :
    TrieNode.has_word t w = true ∧ cfg.min_len ≤ (w.length : Int) ∧
      ∃ p, Traces (normGrid grid) (gridRows grid) (gridCols grid) cfg.allow_diagonal w p := by
  match grid with
  | [] => exact absurd h (List.not_mem_nil w)
  | row0 :: rest =>
    rw [solve_grid] at h
    split at h
    case isTrue => exact absurd h (List.not_mem_nil w)
    case isFalse hne =>
      have hnodup := nodup_allCells (row0 :: rest).length row0.length
      rcases foldl_sound _
          (fun rc x => TrieNode.has_word t x = true ∧ cfg.min_len ≤ (x.length : Int) ∧
            ∃ q, q.head? = some rc ∧
              Steps (adj (row0 :: rest).length row0.length cfg.allow_diagonal) q ∧
              q.Nodup ∧
              (∀ y ∈ q.tail, y ∈ (allCells (row0 :: rest).length row0.length).erase rc) ∧
              x = [] ++ (q.map (cellAt (normGrid (row0 :: rest)))).flatten)
          (by
            intro acc rc x hx
            exact dfs_sound _ _ _ _ _ _ _ _ _ _ _
              (hnodup.erase rc) (not_mem_erase_self hnodup rc) hx)
          _ _ _ h with hbase | ⟨rc, hrcmem, hw, hlen, q, hqhead, hqsteps, hqnd, hqtail, hxeq⟩
      · exact absurd hbase (List.not_mem_nil w)
      · refine ⟨hw, hlen, q, ?_, hqsteps, hqnd, ?_, ?_⟩
        · intro h0; rw [h0] at hqhead; simp at hqhead
        · cases q with
          | nil => simp at hqhead
          | cons q0 q' =>
            have hq0 : q0 = rc := by simpa using hqhead
            subst hq0
            intro x hx
            rcases List.mem_cons.mp hx with h0 | h0
            · subst h0
              exact (mem_allCells _ _ _).mp hrcmem
            · exact (mem_allCells _ _ _).mp
                (List.erase_subset _ _ (hqtail _ h0))
        · rw [hxeq]; simp

/-! ## Completeness of the search -/

theorem dfs_complete (g : Grid) (t : TrieNode) (cfg : SolveConfig) (rows cols : Nat) :
    ∀ (q : List Coord) (fuel : Nat) (free : List Coord) (rc : Coord) (current : List Char)
      (out : List (List Char)) (w : List Char),
      free.length + 1 ≤ fuel →
      q.head? = some rc →
      Steps (adj rows cols cfg.allow_diagonal) q →
      q.Nodup →
      (∀ x ∈ q.tail, x ∈ free) →
      w = current ++ (q.map (cellAt g)).flatten →
      TrieNode.has_word t w = true →
      cfg.min_len ≤ (w.length : Int) →
      w ∈ dfs g t cfg rows cols fuel free rc current out := by
  intro q
  induction q with
  | nil => intro fuel free rc current out w _ hqh; simp at hqh
  | cons q0 q' ih =>
    intro fuel free rc current out w hfuel hqh hsteps hnd htail hweq hw hlen
    have hq0 : q0 = rc := by simpa using hqh
    subst hq0
    cases fuel with
    | zero => exact absurd hfuel (by omega)
    | succ f =>
      rw [dfs_succ]
      have hprefnext : TrieNode.hasPref t (current ++ cellAt g q0) = true := by
        refine hasPref_of_has_word_pre t w _ hw ⟨(q'.map (cellAt g)).flatten, ?_⟩
        rw [hweq]; simp [List.append_assoc]
      rw [if_pos hprefnext]
      cases q' with
      | nil =>
        have hwn : w = current ++ cellAt g q0 := by rw [hweq]; simp
        have hcond : cfg.min_len ≤ ((current ++ cellAt g q0).length : Int) ∧
            TrieNode.has_word t (current ++ cellAt g q0) = true := by
          rw [← hwn]; exact ⟨hlen, hw⟩
        rw [if_pos hcond]
        apply foldl_mem_of_mem
        · intro acc a x hx
          split
          · exact dfs_mono g t cfg rows cols f (free.erase a) a (current ++ cellAt g q0) acc x hx
          · exact hx
        · rw [hwn]
          exact mem_addWord_self _ _
      | cons n q'' =>
        have hn_free : n ∈ free := htail n (List.mem_cons_self n q'')
        have hnn : n ∉ q'' := (List.nodup_cons.mp (List.nodup_cons.mp hnd).2).1
        refine foldl_mem_of_step _ ?_ n w ?_ _ hsteps.1 _
        · intro acc a x hx
          split
          · exact dfs_mono g t cfg rows cols f (free.erase a) a (current ++ cellAt g q0) acc x hx
          · exact hx
        · intro acc
          rw [if_pos hn_free]
          refine ih f (free.erase n) n (current ++ cellAt g q0) acc w ?_ rfl hsteps.2
            (List.nodup_cons.mp hnd).2 ?_ ?_ hw hlen
          · rw [List.length_erase_of_mem hn_free]
            have hpos : 0 < free.length := List.length_pos_of_mem hn_free
            omega
          · intro x hx
            rw [List.mem_erase_of_ne (fun h0 => hnn (by rw [← h0]; exact hx))]
            exact htail x (List.mem_cons_of_mem n hx)
          · rw [hweq]; simp [List.append_assoc]

theorem solve_grid_complete (grid : Grid) (t : TrieNode) (cfg : SolveConfig)
    (w : List Char) (p : List Coord)
    (htr : Traces (normGrid grid) (gridRows grid) (gridCols grid) cfg.allow_diagonal w p)
    (hw : TrieNode.has_word t w = true)
    (hlen : cfg.min_len ≤ (w.length : Int)) :
    w ∈ solve_grid grid t cfg := by
  obtain ⟨hpne, hsteps, hnd, hbound, hspell⟩ := htr
  cases p with
  | nil => exact absurd rfl hpne
  | cons rc0 p' =>
    have hrc0b := hbound rc0 (List.mem_cons_self rc0 p')
    match grid with
    | [] => exact absurd hrc0b.1 (by simp [gridRows])
    | row0 :: rest =>
      have hcols : gridCols (row0 :: rest) = row0.length := rfl
      have hrows : gridRows (row0 :: rest) = (row0 :: rest).length := rfl
      rw [solve_grid]
      rw [if_neg (by
        intro hemp
        rw [List.isEmpty_iff] at hemp
        have h2 := hrc0b.2
        rw [show gridCols (row0 :: rest) = row0.length from rfl, hemp] at h2
        simp at h2)]
      have hrc0mem : rc0 ∈ allCells (row0 :: rest).length row0.length :=
        (mem_allCells _ _ _).mpr ⟨hrc0b.1, hrc0b.2⟩
      refine foldl_mem_of_step _ ?_ rc0 w ?_ _ hrc0mem _
      · intro acc a x hx
        exact dfs_mono _ _ _ _ _ _ _ _ _ _ x hx
      · intro acc
        have hnodup := nodup_allCells (row0 :: rest).length row0.length
        refine dfs_complete _ _ _ _ _ (rc0 :: p') _ _ _ _ _ _ ?_ rfl hsteps hnd ?_ ?_ hw hlen
        · rw [List.length_erase_of_mem hrc0mem, length_allCells]
          have hpos : 0 < (allCells (row0 :: rest).length row0.length).length :=
            List.length_pos_of_mem hrc0mem
          rw [length_allCells] at hpos
          omega
        · intro x hx
          have hxa : x ∈ allCells (row0 :: rest).length row0.length :=
            (mem_allCells _ _ _).mpr ⟨(hbound x (List.mem_cons_of_mem rc0 hx)).1,
              (hbound x (List.mem_cons_of_mem rc0 hx)).2⟩
          have hxne : x ≠ rc0 := fun h0 => (List.nodup_cons.mp hnd).1 (h0 ▸ hx)
          rw [List.mem_erase_of_ne hxne]
          exact hxa
        · rw [← hspell]; simp

/-! ## Equivalence of the two traversal entry points -/

theorem dfsP_succ (g : Grid) (t : TrieNode) (cfg : SolveConfig) (rows cols : Nat)
    (fuel : Nat) (free : List Coord) (rc : Coord) (current : List Char)
    (path : List Coord) (acc : List (List Char × List Coord)) :
    dfsP g t cfg rows cols (fuel + 1) free rc current path acc =
      if TrieNode.hasPref t (current ++ cellAt g rc) then
        (neighbors rc.1 rc.2 rows cols cfg.allow_diagonal).foldl
          (fun a n =>
            if n ∈ free then
              dfsP g t cfg rows cols fuel (free.erase n) n (current ++ cellAt g rc)
                (path ++ [rc]) a
            else a)
          (if cfg.min_len ≤ ((current ++ cellAt g rc).length : Int) ∧
              TrieNode.has_word t (current ++ cellAt g rc) = true then
            (if (findPath acc (current ++ cellAt g rc)).isNone then
              acc ++ [(current ++ cellAt g rc, path ++ [rc])]
            else acc)
          else acc)
      else acc := rfl

theorem findPath_none_iff (acc : List (List Char × List Coord)) (q : List Char) :
    findPath acc q = none ↔ q ∉ acc.map Prod.fst := by
  induction acc with
  | nil => simp [findPath]
  | cons e rest ih =>
    obtain ⟨v, p⟩ := e
    by_cases hv : v = q
    · subst hv; simp [findPath, ih]
    · simp only [findPath]
      rw [if_neg hv, ih]
      simp only [List.map_cons, List.mem_cons]
      constructor
      · intro h hor
        rcases hor with h0 | h0
        · exact hv h0.symm
        · exact h h0
      · intro h h0
        exact h (Or.inr h0)

theorem foldl_rel {α β γ : Type} (R : β → γ → Prop) (f : β → α → β) (f2 : γ → α → γ)
    (h : ∀ b c a, R b c → R (f b a) (f2 c a)) :
    ∀ (l : List α) (b : β) (c : γ), R b c → R (l.foldl f b) (l.foldl f2 c) := by
  intro l
  induction l with
  | nil => intro b c hbc; exact hbc
  | cons a l' ih => intro b c hbc; exact ih (f b a) (f2 c a) (h b c a hbc)

theorem dfs_dfsP (g : Grid) (t : TrieNode) (cfg : SolveConfig) (rows cols : Nat) :
    ∀ (fuel : Nat) (free : List Coord) (rc : Coord) (current : List Char)
      (path : List Coord) (out : List (List Char)) (acc : List (List Char × List Coord)),
      (∀ x : List Char, x ∈ out ↔ x ∈ acc.map Prod.fst) →
      ∀ x : List Char,
        x ∈ dfs g t cfg rows cols fuel free rc current out ↔
          x ∈ (dfsP g t cfg rows cols fuel free rc current path acc).map Prod.fst := by
  intro fuel
  induction fuel with
  | zero => intro free rc current path out acc hrel x; exact hrel x
  | succ f ih =>
    intro free rc current path out acc hrel x
    rw [dfs_succ, dfsP_succ]
    by_cases hp : TrieNode.hasPref t (current ++ cellAt g rc) = true
    · rw [if_pos hp, if_pos hp]
      refine foldl_rel
        (fun (o : List (List Char)) (a : List (List Char × List Coord)) =>
          ∀ y : List Char, y ∈ o ↔ y ∈ a.map Prod.fst) _ _ ?_ _ _ _ ?_ x
      · intro o a n hoa
        by_cases hn : n ∈ free
        · rw [if_pos hn, if_pos hn]
          intro y
          exact ih (free.erase n) n (current ++ cellAt g rc) (path ++ [rc]) o a hoa y
        · rw [if_neg hn, if_neg hn]
          exact hoa
      · by_cases hc : cfg.min_len ≤ ((current ++ cellAt g rc).length : Int) ∧
            TrieNode.has_word t (current ++ cellAt g rc) = true
        · rw [if_pos hc, if_pos hc]
          by_cases hfp : (findPath acc (current ++ cellAt g rc)).isNone = true
          · rw [if_pos hfp]
            intro y
            rw [mem_addWord_iff, hrel y]
            simp
          · rw [if_neg hfp]
            have hmem : (current ++ cellAt g rc) ∈ acc.map Prod.fst := by
              by_contra hno
              exact hfp (by rw [(findPath_none_iff _ _).mpr hno]; rfl)
            intro y
            rw [mem_addWord_iff, hrel y]
            constructor
            · rintro (hy | rfl)
              · exact hy
              · exact hmem
            · exact Or.inl
        · rw [if_neg hc, if_neg hc]
          exact hrel
    · rw [if_neg hp, if_neg hp]
      exact hrel x

theorem solve_keys (grid : Grid) (t : TrieNode) (cfg : SolveConfig) (x : List Char) :
    x ∈ solve_grid grid t cfg ↔
      x ∈ (solve_grid_with_paths grid t cfg).map Prod.fst := by
  match grid with
  | [] => simp [solve_grid, solve_grid_with_paths]
  | row0 :: rest =>
    rw [solve_grid, solve_grid_with_paths]
    by_cases hemp : row0.isEmpty = true
    · rw [if_pos hemp, if_pos hemp]; simp
    · rw [if_neg hemp, if_neg hemp]
      refine foldl_rel
        (fun (o : List (List Char)) (a : List (List Char × List Coord)) =>
          ∀ y : List Char, y ∈ o ↔ y ∈ a.map Prod.fst) _ _ ?_ _ _ _ ?_ x
      · intro o a rc hoa y
        exact dfs_dfsP _ _ _ _ _ _ _ _ _ _ _ _ hoa y
      · intro y; simp

/-! ## Path validity for the path-returning entry point -/

theorem nodup_concat {l : List Coord} {b : Coord} (h : l.Nodup) (hb : b ∉ l) :
    (l ++ [b]).Nodup := by
  rw [List.nodup_append]
  exact ⟨h, List.nodup_singleton b, by simpa using hb⟩

theorem dfsP_sound (g : Grid) (t : TrieNode) (cfg : SolveConfig) (rows cols : Nat) :
    ∀ (fuel : Nat) (free : List Coord) (rc : Coord) (current : List Char)
      (path : List Coord) (acc : List (List Char × List Coord)),
      free.Nodup →
      (∀ x ∈ path ++ [rc], x ∉ free) →
      (path ++ [rc]).Nodup →
      Steps (adj rows cols cfg.allow_diagonal) (path ++ [rc]) →
      ((path ++ [rc]).map (cellAt g)).flatten = current ++ cellAt g rc →
      (∀ x ∈ path ++ [rc], inBounds rows cols x) →
      ∀ e ∈ dfsP g t cfg rows cols fuel free rc current path acc,
        e ∈ acc ∨ Traces g rows cols cfg.allow_diagonal e.1 e.2 := by
  intro fuel
  induction fuel with
  | zero => intro free rc current path acc _ _ _ _ _ _ e he; exact Or.inl he
  | succ f ih =>
    intro free rc current path acc hnd hdisj hpnd hpsteps hpspell hpbound e he
    rw [dfsP_succ] at he
    split at he
    case isFalse => exact Or.inl he
    case isTrue hpref =>
      rcases foldl_sound _
          (fun n x => n ∈ neighbors rc.1 rc.2 rows cols cfg.allow_diagonal →
            Traces g rows cols cfg.allow_diagonal x.1 x.2)
          (by
            intro acc' n x hx
            by_cases hn : n ∈ free
            · rw [if_pos hn] at hx
              by_cases hnns : n ∈ neighbors rc.1 rc.2 rows cols cfg.allow_diagonal
              · have hnpath : n ∉ path ++ [rc] := fun h0 => hdisj n h0 hn
                rcases ih (free.erase n) n (current ++ cellAt g rc) (path ++ [rc]) acc'
                    (hnd.erase n)
                    (by
                      intro y hy
                      rcases List.mem_append.mp hy with h0 | h0
                      · exact fun hc => hdisj y h0 (List.erase_subset _ _ hc)
                      · rw [List.mem_singleton.mp h0]
                        exact not_mem_erase_self hnd n)
                    (nodup_concat hpnd hnpath)
                    (steps_concat path rc n hpsteps hnns)
                    (by rw [List.map_append, List.flatten_append]
                        rw [hpspell]
                        simp)
                    (by
                      intro y hy
                      rcases List.mem_append.mp hy with h0 | h0
                      · exact hpbound y h0
                      · rw [List.mem_singleton.mp h0]
                        exact ⟨(mem_neighbors_bounds hnns).1, (mem_neighbors_bounds hnns).2⟩)
                    x hx with h1 | h2
                · exact Or.inl h1
                · exact Or.inr (fun _ => h2)
              · exact Or.inr (fun hc => absurd hc hnns)
            · rw [if_neg hn] at hx
              exact Or.inl hx)
          _ _ _ he with hbase | ⟨n, hns, hq⟩
      · split at hbase
        case isTrue hcond =>
          split at hbase
          case isTrue hfp =>
            rcases List.mem_append.mp hbase with h0 | h0
            · exact Or.inl h0
            · rw [List.mem_singleton.mp h0]
              refine Or.inr ⟨by simp, hpsteps, hpnd, hpbound, hpspell⟩
          case isFalse => exact Or.inl hbase
        case isFalse => exact Or.inl hbase
      · exact Or.inr (hq hns)

theorem solve_paths_sound (grid : Grid) (t : TrieNode) (cfg : SolveConfig)
    (e : List Char × List Coord) (he : e ∈ solve_grid_with_paths grid t cfg) :
    Traces (normGrid grid) (gridRows grid) (gridCols grid) cfg.allow_diagonal e.1 e.2 := by
  match grid with
  | [] => exact absurd he (List.not_mem_nil e)
  | row0 :: rest =>
    rw [solve_grid_with_paths] at he
    split at he
    case isTrue => exact absurd he (List.not_mem_nil e)
    case isFalse hne =>
      have hnodup := nodup_allCells (row0 :: rest).length row0.length
      rcases foldl_sound _
          (fun rc x => rc ∈ allCells (row0 :: rest).length row0.length →
            Traces (normGrid (row0 :: rest)) (row0 :: rest).length row0.length
              cfg.allow_diagonal x.1 x.2)
          (by
            intro acc rc x hx
            by_cases hrc : rc ∈ allCells (row0 :: rest).length row0.length
            · rcases dfsP_sound _ _ _ _ _ _ _ rc [] [] _
                  (hnodup.erase rc)
                  (by
                    intro y hy
                    rw [show ([] : List Coord) ++ [rc] = [rc] from rfl,
                      List.mem_singleton] at hy
                    rw [hy]
                    exact not_mem_erase_self hnodup rc)
                  (List.nodup_singleton rc)
                  trivial
                  (by simp)
                  (by
                    intro y hy
                    rw [show ([] : List Coord) ++ [rc] = [rc] from rfl,
                      List.mem_singleton] at hy
                    rw [hy]
                    exact (mem_allCells _ _ _).mp hrc)
                  x hx with h1 | h2
              · exact Or.inl h1
              · exact Or.inr (fun _ => h2)
            · exact Or.inr (fun hc => absurd hc hrc))
          _ _ _ he with hbase | ⟨rc, hrcmem, hq⟩
      · exact absurd hbase (List.not_mem_nil e)
      · exact hq hrcmem

/-! ## Counting helpers -/

theorem flatten_map_length_le (g : Grid) :
    ∀ (p : List Coord), (∀ x ∈ p, (cellAt g x).length ≤ 1) →
      ((p.map (cellAt g)).flatten).length ≤ p.length := by
  intro p
  induction p with
  | nil => intro _; simp
  | cons a p' ih =>
    intro h
    rw [List.map_cons, List.flatten_cons, List.length_append]
    have h1 := h a (List.mem_cons_self a p')
    have h2 := ih (fun x hx => h x (List.mem_cons_of_mem a hx))
    simp only [List.length_cons]
    omega

theorem flatten_map_length_eq (g : Grid) :
    ∀ (p : List Coord), (∀ x ∈ p, (cellAt g x).length = 1) →
      ((p.map (cellAt g)).flatten).length = p.length := by
  intro p
  induction p with
  | nil => intro _; simp
  | cons a p' ih =>
    intro h
    rw [List.map_cons, List.flatten_cons, List.length_append]
    have h1 := h a (List.mem_cons_self a p')
    have h2 := ih (fun x hx => h x (List.mem_cons_of_mem a hx))
    simp only [List.length_cons]
    omega

theorem length_le_cells {p : List Coord} {rows cols : Nat} (hnd : p.Nodup)
    (hb : ∀ x ∈ p, inBounds rows cols x) : p.length ≤ rows * cols := by
  have hsub : p ⊆ allCells rows cols := fun x hx =>
    (mem_allCells _ _ _).mpr ⟨(hb x hx).1, (hb x hx).2⟩
  have := (List.subperm_of_subset hnd hsub).length_le
  rwa [length_allCells] at this

/-! ## Fuel irrelevance: the recursion depth is bounded by the cell count -/

theorem foldl_congr_fn {α β : Type} (f f2 : β → α → β) :
    ∀ (l : List α) (b : β), (∀ acc a, a ∈ l → f acc a = f2 acc a) →
      l.foldl f b = l.foldl f2 b := by
  intro l
  induction l with
  | nil => intro b _; rfl
  | cons a l' ih =>
    intro b h
    rw [List.foldl_cons, List.foldl_cons, h b a (List.mem_cons_self a l')]
    exact ih (f2 b a) (fun acc x hx => h acc x (List.mem_cons_of_mem a hx))

theorem dfs_fuel (g : Grid) (t : TrieNode) (cfg : SolveConfig) (rows cols : Nat) :
    ∀ (f1 f2 : Nat) (free : List Coord) (rc : Coord) (current : List Char)
      (out : List (List Char)),
      free.length < f1 → free.length < f2 →
      dfs g t cfg rows cols f1 free rc current out =
        dfs g t cfg rows cols f2 free rc current out := by
  intro f1
  induction f1 with
  | zero => intro f2 free rc current out h1 _; exact absurd h1 (by omega)
  | succ a ih =>
    intro f2 free rc current out h1 h2
    cases f2 with
    | zero => exact absurd h2 (by omega)
    | succ b =>
      rw [dfs_succ, dfs_succ]
      by_cases hp : TrieNode.hasPref t (current ++ cellAt g rc) = true
      · rw [if_pos hp, if_pos hp]
        refine foldl_congr_fn _ _ _ _ ?_
        intro acc n _
        by_cases hn : n ∈ free
        · rw [if_pos hn, if_pos hn]
          have hl := List.length_erase_of_mem hn
          have hpos := List.length_pos_of_mem hn
          exact ih b (free.erase n) n (current ++ cellAt g rc) acc (by omega) (by omega)
        · rw [if_neg hn, if_neg hn]
      · rw [if_neg hp, if_neg hp]

theorem dfsP_fuel (g : Grid) (t : TrieNode) (cfg : SolveConfig) (rows cols : Nat) :
    ∀ (f1 f2 : Nat) (free : List Coord) (rc : Coord) (current : List Char)
      (path : List Coord) (acc : List (List Char × List Coord)),
      free.length < f1 → free.length < f2 →
      dfsP g t cfg rows cols f1 free rc current path acc =
        dfsP g t cfg rows cols f2 free rc current path acc := by
  intro f1
  induction f1 with
  | zero => intro f2 free rc current path acc h1 _; exact absurd h1 (by omega)
  | succ a ih =>
    intro f2 free rc current path acc h1 h2
    cases f2 with
    | zero => exact absurd h2 (by omega)
    | succ b =>
      rw [dfsP_succ, dfsP_succ]
      by_cases hp : TrieNode.hasPref t (current ++ cellAt g rc) = true
      · rw [if_pos hp, if_pos hp]
        refine foldl_congr_fn _ _ _ _ ?_
        intro a' n _
        by_cases hn : n ∈ free
        · rw [if_pos hn, if_pos hn]
          have hl := List.length_erase_of_mem hn
          have hpos := List.length_pos_of_mem hn
          exact ih b (free.erase n) n (current ++ cellAt g rc) (path ++ [rc]) a'
            (by omega) (by omega)
        · rw [if_neg hn, if_neg hn]
      · rw [if_neg hp, if_neg hp]

/-! ## The claims -/

instance (grid : Grid) : Decidable (Rect grid) :=
  inferInstanceAs (Decidable (∀ row ∈ grid, row.length = gridCols grid))

/-- C1: soundness of the search — every word returned by `solve_grid` on a
trie built by insertions is an inserted word, has length at least
`min_len`, and is traceable as a simple path of adjacent in-bounds cells
whose tokens spell it. -/
theorem claim_C1 (grid : Grid) (ws : List (List Char)) (cfg : SolveConfig) (w : List Char)
    (hrect : Rect grid) (hmem : w ∈ solve_grid grid ( Trie.ofWords ws) cfg) :
    w ∈ ws ∧ cfg.min_len ≤ (w.length : Int) ∧
      ∃ p, Traces (normGrid grid) (gridRows grid) (gridCols grid) cfg.allow_diagonal w p := by
  obtain ⟨hw, hlen, p, htr⟩ := solve_grid_sound grid _ cfg w hmem
  exact ⟨(has_word_ofWords ws w).mp hw, hlen, p, htr⟩

/-- Witness for C1 on the spec's concrete 2×2 scenario. -/
theorem claim_C1_witness :
    Rect [[['c'], ['a']], [['t'], ['s']]] ∧
    ['c','a','t','s'] ∈ solve_grid [[['c'], ['a']], [['t'], ['s']]]
      ( Trie.ofWords [['c','a','t'], ['c','a','t','s'], ['a','t'], ['c','a']])
      ⟨2, true⟩ ∧
    (['c','a','t','s'] ∈ [['c','a','t'], ['c','a','t','s'], ['a','t'], ['c','a']] ∧
      (⟨2, true⟩ : SolveConfig).min_len ≤ ((['c','a','t','s'] : List Char).length : Int) ∧
      ∃ p, Traces (normGrid [[['c'], ['a']], [['t'], ['s']]])
        (gridRows [[['c'], ['a']], [['t'], ['s']]])
        (gridCols [[['c'], ['a']], [['t'], ['s']]]) true ['c','a','t','s'] p) :=
  ⟨by decide, by decide, claim_C1 _ _ _ _ (by decide) (by decide)⟩

/-- C2: completeness of the search — every inserted word of length at
least `min_len` that is traceable as a simple adjacent path appears in
the result of `solve_grid`; the `has_prefix` pruning never discards a
traceable word. -/
theorem claim_C2 (grid : Grid) (ws : List (List Char)) (cfg : SolveConfig)
    (w : List Char) (p : List Coord)
    (hrect : Rect grid) (hmem : w ∈ ws) (hlen : cfg.min_len ≤ (w.length : Int))
    (htr : Traces (normGrid grid) (gridRows grid) (gridCols grid) cfg.allow_diagonal w p) :
    w ∈ solve_grid grid ( Trie.ofWords ws) cfg :=
  solve_grid_complete grid _ cfg w p htr ((has_word_ofWords ws w).mpr hmem) hlen

/-- Witness for C2: the word `cats` is traceable on the 2×2 grid and is
indeed found. -/
theorem claim_C2_witness :
    Rect [[['c'], ['a']], [['t'], ['s']]] ∧
    ['c','a','t','s'] ∈ [['c','a','t'], ['c','a','t','s'], ['a','t'], ['c','a']] ∧
    (⟨2, true⟩ : SolveConfig).min_len ≤ ((['c','a','t','s'] : List Char).length : Int) ∧
    Traces (normGrid [[['c'], ['a']], [['t'], ['s']]])
      (gridRows [[['c'], ['a']], [['t'], ['s']]])
      (gridCols [[['c'], ['a']], [['t'], ['s']]]) true ['c','a','t','s']
      [(0, 0), (0, 1), (1, 0), (1, 1)] ∧
    ['c','a','t','s'] ∈ solve_grid [[['c'], ['a']], [['t'], ['s']]]
      ( Trie.ofWords [['c','a','t'], ['c','a','t','s'], ['a','t'], ['c','a']])
      ⟨2, true⟩ :=
  ⟨by decide, by decide, by decide, by decide,
    claim_C2 _ _ _ _ [(0, 0), (0, 1), (1, 0), (1, 1)]
      (by decide) (by decide) (by decide) (by decide)⟩

/-- C3: the two traversal entry points agree — the set returned by
`solve_grid` equals the key set of the mapping returned by
`solve_grid_with_paths`, for every grid, trie and configuration. -/
theorem claim_C3 (grid : Grid) (t : TrieNode) (cfg : SolveConfig) (w : List Char) :
    w ∈ solve_grid grid t cfg ↔
      w ∈ (solve_grid_with_paths grid t cfg).map Prod.fst :=
  solve_keys grid t cfg w

/-- C4 counterexample: on the trie built by zero insertions, the empty
query already satisfies `has_prefix`, yet it is not a prefix of any
inserted word — the claim's iff fails at this input. -/
theorem claim_C4_counterexample :
    TrieNode.hasPref ( Trie.ofWords []) [] = true ∧
      ¬ ∃ v ∈ ([] : List (List Char)), ([] : List Char) <+: v :=
  ⟨rfl, by simp⟩

/-- C4 amended: `has_prefix` returns true iff the query is empty or is a
prefix of at least one inserted word (the empty query is accepted even
when nothing was inserted, since the descent from the root trivially
succeeds). -/
theorem claim_C4_amended (ws : List (List Char)) (w : List Char) :
    TrieNode.hasPref ( Trie.ofWords ws) w = true ↔ (w = [] ∨ ∃ v ∈ ws, w <+: v) :=
  hasPref_ofWords ws w

/-- C5: `has_word` is exact-word membership — true iff the query was
inserted as a complete word; in particular false for proper prefixes of
inserted words and for failed descents. -/
theorem claim_C5 (ws : List (List Char)) (w : List Char) :
    TrieNode.has_word ( Trie.ofWords ws) w = true ↔ w ∈ ws :=
  has_word_ofWords ws w

/-- C6 counterexample: a single-cell grid whose token is the two-character
string `ab` yields the pair `("ab", [(0,0)])`, whose path length 1 differs
from the word length 2 — the claim's length equation fails. -/
theorem claim_C6_counterexample :
    (['a','b'], [((0 : Nat), (0 : Nat))]) ∈
      solve_grid_with_paths [[['a','b']]] ( Trie.ofWords [['a','b']]) ⟨2, true⟩ ∧
      ¬ ([((0 : Nat), (0 : Nat))] : List Coord).length = (['a','b'] : List Char).length := by
  constructor
  · decide
  · decide

/-- C6 amended: for every pair in the path-mode result, consecutive path
coordinates are adjacent, no coordinate repeats, all are in bounds, and
the normalised grid tokens along the path concatenate to the word; the
path length equals the word length whenever every token on the path is a
single character (the original claim assumed this implicitly and fails
for multi-character cell tokens). -/
theorem claim_C6_amended (grid : Grid) (t : TrieNode) (cfg : SolveConfig)
    (w : List Char) (p : List Coord) (hrect : Rect grid)
    (hmem : (w, p) ∈ solve_grid_with_paths grid t cfg) :
    Steps (adj (gridRows grid) (gridCols grid) cfg.allow_diagonal) p ∧ p.Nodup ∧
      (∀ rc ∈ p, inBounds (gridRows grid) (gridCols grid) rc) ∧
      (p.map (cellAt (normGrid grid))).flatten = w ∧
      ((∀ rc ∈ p, (cellAt (normGrid grid) rc).length = 1) → p.length = w.length) := by
  obtain ⟨hne, hsteps, hnd, hb, hsp⟩ := solve_paths_sound grid t cfg (w, p) hmem
  have hsp' : (p.map (cellAt (normGrid grid))).flatten = w := hsp
  refine ⟨hsteps, hnd, hb, hsp', ?_⟩
  intro hall
  rw [← hsp']
  exact (flatten_map_length_eq _ p hall).symm

/-- Witness for C6 amended on the 2×2 scenario: the recorded path for
`cat` is valid. -/
theorem claim_C6_amended_witness :
    Rect [[['c'], ['a']], [['t'], ['s']]] ∧
    (['c','a','t'], [((0 : Nat), (0 : Nat)), (0, 1), (1, 0)]) ∈
      solve_grid_with_paths [[['c'], ['a']], [['t'], ['s']]]
        ( Trie.ofWords [['c','a','t'], ['c','a','t','s'], ['a','t'], ['c','a']])
        ⟨2, true⟩ ∧
    (Steps (adj (gridRows [[['c'], ['a']], [['t'], ['s']]])
        (gridCols [[['c'], ['a']], [['t'], ['s']]]) true)
        [((0 : Nat), (0 : Nat)), (0, 1), (1, 0)] ∧
      ([((0 : Nat), (0 : Nat)), (0, 1), (1, 0)] : List Coord).Nodup ∧
      (∀ rc ∈ ([((0 : Nat), (0 : Nat)), (0, 1), (1, 0)] : List Coord),
        inBounds (gridRows [[['c'], ['a']], [['t'], ['s']]])
          (gridCols [[['c'], ['a']], [['t'], ['s']]]) rc) ∧
      (([((0 : Nat), (0 : Nat)), (0, 1), (1, 0)] : List Coord).map
        (cellAt (normGrid [[['c'], ['a']], [['t'], ['s']]]))).flatten = ['c','a','t'] ∧
      ((∀ rc ∈ ([((0 : Nat), (0 : Nat)), (0, 1), (1, 0)] : List Coord),
          (cellAt (normGrid [[['c'], ['a']], [['t'], ['s']]]) rc).length = 1) →
        ([((0 : Nat), (0 : Nat)), (0, 1), (1, 0)] : List Coord).length =
          (['c','a','t'] : List Char).length)) :=
  ⟨by decide, by decide,
    claim_C6_amended [[['c'], ['a']], [['t'], ['s']]]
      ( Trie.ofWords [['c','a','t'], ['c','a','t','s'], ['a','t'], ['c','a']])
      ⟨2, true⟩ ['c','a','t'] [((0 : Nat), (0 : Nat)), (0, 1), (1, 0)]
      (by decide) (by decide)⟩

/-- C7: diagonal monotonicity — a word found with diagonal adjacency
disabled is also found with it enabled, for the same grid, trie and
minimum length. -/
theorem claim_C7 (grid : Grid) (t : TrieNode) (m : Int) (w : List Char)
    (h : w ∈ solve_grid grid t ⟨m, false⟩) :
    w ∈ solve_grid grid t ⟨m, true⟩ := by
  obtain ⟨hw, hlen, p, hpne, hsteps, hnd, hb, hsp⟩ := solve_grid_sound grid t ⟨m, false⟩ w h
  exact solve_grid_complete grid t ⟨m, true⟩ w p
    ⟨hpne, steps_imp (fun a b hab => adj_mono hab) p hsteps, hnd, hb, hsp⟩ hw hlen

/-- Witness for C7: `ca` is found without diagonals on the 2×2 grid,
hence also with them. -/
theorem claim_C7_witness :
    ['c','a'] ∈ solve_grid [[['c'], ['a']], [['t'], ['s']]]
      ( Trie.ofWords [['c','a','t'], ['c','a','t','s'], ['a','t'], ['c','a']])
      ⟨2, false⟩ ∧
    ['c','a'] ∈ solve_grid [[['c'], ['a']], [['t'], ['s']]]
      ( Trie.ofWords [['c','a','t'], ['c','a','t','s'], ['a','t'], ['c','a']])
      ⟨2, true⟩ :=
  ⟨by decide, claim_C7 _ _ _ _ (by decide)⟩

/-- C8: insert idempotence — inserting the same word `k ≥ 1` times yields
a trie answering both queries exactly as after a single insertion. -/
theorem claim_C8 (t : TrieNode) (w q : List Char) (k : Nat) (hk : 1 ≤ k) :
    TrieNode.hasPref ((fun s => TrieNode.insert s w)^[k] t) q =
        TrieNode.hasPref ( TrieNode.insert t w) q ∧
      TrieNode.has_word ((fun s => TrieNode.insert s w)^[k] t) q =
        TrieNode.has_word ( TrieNode.insert t w) q := by
  obtain ⟨k', rfl⟩ : ∃ k', k = k' + 1 := ⟨k - 1, by omega⟩
  rw [insert_iterate]
  exact ⟨rfl, rfl⟩

/-- Witness for C8 with a double insertion. -/
theorem claim_C8_witness :
    1 ≤ 2 ∧
      ( TrieNode.hasPref ((fun s => TrieNode.insert s ['a','b'])^[2] TrieNode.empty) ['a'] =
          TrieNode.hasPref ( TrieNode.insert TrieNode.empty ['a','b']) ['a'] ∧
        TrieNode.has_word ((fun s => TrieNode.insert s ['a','b'])^[2] TrieNode.empty) ['a'] =
          TrieNode.has_word ( TrieNode.insert TrieNode.empty ['a','b']) ['a']) :=
  ⟨by decide, claim_C8 TrieNode.empty ['a','b'] ['a'] 2 (by decide)⟩

/-- C9 counterexample: a 1×1 grid with the two-character token `ab` and
`min_len = 2 > 1 = rows·cols` still yields a non-empty result — the
claim fails for multi-character cell tokens. -/
theorem claim_C9_counterexample :
    ((gridRows [[['a','b']]] * gridCols [[['a','b']]] : Nat) : Int) < (2 : Int) ∧
      solve_grid [[['a','b']]] ( Trie.ofWords [['a','b']]) ⟨2, true⟩ ≠ [] := by
  constructor
  · decide
  · decide

theorem cellAt_norm_tok_le (grid : Grid) (hrect : Rect grid)
    (htok : ∀ row ∈ normGrid grid, ∀ tok ∈ row, tok.length ≤ 1)
    (x : Coord) (hb : inBounds (gridRows grid) (gridCols grid) x) :
    (cellAt (normGrid grid) x).length ≤ 1 := by
  obtain ⟨r, c⟩ := x
  obtain ⟨hr, hc⟩ := hb
  have hrg : r < grid.length := hr
  have hr' : r < (normGrid grid).length := by
    rw [normGrid, List.length_map]; exact hr
  have hrow_eq : (normGrid grid)[r] = (grid[r]).map normCell := by
    simp only [normGrid]
    exact List.getElem_map _
  have hrowlen : (grid[r]).length = gridCols grid := hrect (grid[r]) (List.getElem_mem hrg)
  have hc2 : c < ((normGrid grid)[r]).length := by
    rw [hrow_eq, List.length_map, hrowlen]; exact hc
  have hcell : cellAt (normGrid grid) (r, c) = ((normGrid grid)[r])[c] := by
    rw [cellAt]
    show ((normGrid grid).getD r []).getD c [] = _
    rw [List.getD_eq_getElem _ _ hr', List.getD_eq_getElem _ _ hc2]
  rw [hcell]
  exact htok ((normGrid grid)[r]) (List.getElem_mem hr') (((normGrid grid)[r])[c])
    (List.getElem_mem hc2)

/-- C9 amended: on a rectangular grid all of whose normalised cell tokens
have at most one character, a `min_len` exceeding the total cell count
forces an empty result (the original claim fails when a cell holds a
multi-character token, since the word length then exceeds the path
length). -/
theorem claim_C9_amended (grid : Grid) (t : TrieNode) (cfg : SolveConfig)
    (hrect : Rect grid)
    (htok : ∀ row ∈ normGrid grid, ∀ tok ∈ row, tok.length ≤ 1)
    (hmin : ((gridRows grid * gridCols grid : Nat) : Int) < cfg.min_len) :
    solve_grid grid t cfg = [] := by
  rw [List.eq_nil_iff_forall_not_mem]
  intro w hw
  obtain ⟨hword, hlen, p, hpne, hsteps, hnd, hb, hsp⟩ := solve_grid_sound grid t cfg w hw
  have h1 : w.length ≤ p.length := by
    rw [← hsp]
    exact flatten_map_length_le _ p (fun x hx => cellAt_norm_tok_le grid hrect htok x (hb x hx))
  have h2 : p.length ≤ gridRows grid * gridCols grid := length_le_cells hnd hb
  omega

/-- Witness for C9 amended: a 1×1 single-letter grid with `min_len = 2`. -/
theorem claim_C9_amended_witness :
    Rect [[['a']]] ∧
      (∀ row ∈ normGrid [[['a']]], ∀ tok ∈ row, tok.length ≤ 1) ∧
      ((gridRows [[['a']]] * gridCols [[['a']]] : Nat) : Int) <
        (⟨2, true⟩ : SolveConfig).min_len ∧
      solve_grid [[['a']]] ( Trie.ofWords [['a']]) ⟨2, true⟩ = [] :=
  ⟨by decide, by decide, by decide,
    claim_C9_amended [[['a']]] ( Trie.ofWords [['a']]) ⟨2, true⟩
      (by decide) (by decide) (by decide)⟩

/-- C10: termination — both recursions are insensitive to the fuel bound
once it exceeds the number of unvisited cells, i.e. the recursion depth
of `dfs` is bounded by the number of grid cells (each call removes its
cell from the unvisited list and only recurses into unvisited in-bounds
cells); `solve_grid` and `solve_grid_with_paths` supply the sufficient
bound `rows * cols`. -/
theorem claim_C10 (g : Grid) (t : TrieNode) (cfg : SolveConfig) (rows cols : Nat)
    (f1 f2 : Nat) (free : List Coord) (rc : Coord) (current : List Char)
    (path : List Coord) (out : List (List Char)) (acc : List (List Char × List Coord))
    (h1 : free.length < f1) (h2 : free.length < f2) :
    dfs g t cfg rows cols f1 free rc current out =
        dfs g t cfg rows cols f2 free rc current out ∧
      dfsP g t cfg rows cols f1 free rc current path acc =
        dfsP g t cfg rows cols f2 free rc current path acc :=
  ⟨dfs_fuel g t cfg rows cols f1 f2 free rc current out h1 h2,
    dfsP_fuel g t cfg rows cols f1 f2 free rc current path acc h1 h2⟩

/-- Witness for C10 at a concrete state with two different sufficient
fuel values. -/
theorem claim_C10_witness :
    ([((0 : Nat), (1 : Nat))] : List Coord).length < 2 ∧
      ([((0 : Nat), (1 : Nat))] : List Coord).length < 3 ∧
      (dfs [[['a'], ['b']]] ( Trie.ofWords [['a','b']]) ⟨1, true⟩ 1 2 2
          [((0 : Nat), (1 : Nat))] (0, 0) [] [] =
        dfs [[['a'], ['b']]] ( Trie.ofWords [['a','b']]) ⟨1, true⟩ 1 2 3
          [((0 : Nat), (1 : Nat))] (0, 0) [] [] ∧
      dfsP [[['a'], ['b']]] ( Trie.ofWords [['a','b']]) ⟨1, true⟩ 1 2 2
          [((0 : Nat), (1 : Nat))] (0, 0) [] [] [] =
        dfsP [[['a'], ['b']]] ( Trie.ofWords [['a','b']]) ⟨1, true⟩ 1 2 3
          [((0 : Nat), (1 : Nat))] (0, 0) [] [] []) :=
  ⟨by decide, by decide,
    claim_C10 [[['a'], ['b']]] ( Trie.ofWords [['a','b']]) ⟨1, true⟩ 1 2 2 3
      [((0 : Nat), (1 : Nat))] (0, 0) [] [] [] []
      (by decide) (by decide)⟩
